import Mathlib

set_option maxHeartbeats 1000000
set_option linter.unnecessarySeqFocus false
set_option linter.unreachableTactic false
set_option linter.unusedTactic false

namespace Graphos

/-!
Verification development for the Graphos directed-graph engine.

The repository holds two coexisting graph representations: the unweighted
adjacency-list `DiGraph` of `graph_lib/graph.rs` (used by the DFS engine) and a
weighted, parallel-edge-capable representation consumed by
`graph_lib/bellman.rs`.  The pieces of the weighted representation
(`tools/inifinity.rs`, `edge.rs`, the weighted `DiGraph`) and the DFS bookkeeping

/-! ## Definitions: shallow embedding of the Graphos sources -/

structure (`busca.rs`) are not part of the sources at hand; they are modelled
from the specification, as marked in their doc comments.  Everything else is a
direct translation of the Rust sources.
-/

/-- Modelled from the spec: the extended-real domain of `tools/inifinity.rs`
(not among the sources): a value is either a finite signed number or the
symbol `+Infinity`. -/
inductive Infinity where
  | Infinite : Infinity
  | Number : Int → Infinity
deriving DecidableEq, Repr

/-- Modelled from the spec: comparison on the extended-real domain.
`+Infinity` is greater than every finite value and equal only to itself.
`Infinity.lt a b` renders the Rust comparison `b > a`. -/
def Infinity.lt : Infinity → Infinity → Bool
  | .Infinite, _ => false
  | .Number _, .Infinite => true
  | .Number a, .Number b => a < b

/-- Modelled from the spec: `+Infinity` plus any finite value is `+Infinity`;
addition of two finite values is ordinary arithmetic. -/
def Infinity.add : Infinity → Infinity → Infinity
  | .Infinite, _ => .Infinite
  | .Number _, .Infinite => .Infinite
  | .Number a, .Number b => .Number (a + b)

/-- Modelled from the spec: extracting the finite value of an extended real;
extraction fails on `+Infinity` (a fallible operation, rendered with
`Option`). -/
def Infinity.unwrap : Infinity → Option Int
  | .Infinite => none
  | .Number a => some a

/-- Non-strict comparison on the extended-real domain, for stating order
facts about potentials. -/
def Infinity.le : Infinity → Infinity → Bool
  | _, .Infinite => true
  | .Infinite, .Number _ => false
  | .Number a, .Number b => a ≤ b

/-- Modelled from the spec: a weighted directed edge (`edge.rs` is not among
the sources).  `bellman.rs` reads only the destination key and the signed
weight of each outgoing edge, so only those fields are modelled. -/
structure EdgeW where
  destiny_key : Int
  weight : Int
deriving DecidableEq, Repr

/-- Modelled from the spec: a vertex of the weighted representation as
consumed by `bellman.rs`: its key and its outgoing weighted edges
(`edges_borrow`). -/
structure VerticeW where
  key : Int
  edges : List EdgeW
deriving DecidableEq, Repr

/-- Modelled from the spec: the weighted `DiGraph` consumed by `bellman.rs`
(not among the sources): a declared vertex count (construction metadata, not
reconciled with the stored vertices) and the stored vertices. -/
structure DiGraphW where
  vertices_num : Nat
  vertices : List VerticeW
deriving DecidableEq, Repr

/-- `iter_vertices` yields the stored vertices. -/
def DiGraphW.iter_vertices (g : DiGraphW) : List VerticeW := g.vertices

/-- `get_vertices_length` returns the declared vertex count
(`graph.rs`, lines 110-112: it returns the `vertices_num` field). -/
def DiGraphW.get_vertices_length (g : DiGraphW) : Nat := g.vertices_num

/-- The keys of the stored vertices. -/
def DiGraphW.keys (g : DiGraphW) : List Int := g.vertices.map (fun v => v.key)

/-- Pointwise insertion into a map rendered as a function, matching hash-map
`insert`/`get` semantics. -/
def mapInsert {α β : Type} [DecidableEq α] (m : α → Option β) (k : α) (v : β) :
    α → Option β :=
  fun x => if x = k then some v else m x

/-- The result record of `bellman.rs`: predecessor and potential maps. -/
structure Bellman where
  pred : Int → Option Int
  pot : Int → Option Infinity

/-- `Bellman::new`: both maps empty. -/
def Bellman.new : Bellman := ⟨fun _ => none, fun _ => none⟩

/-- One step of the initialization loop of `find_shortest_path` (`bellman.rs`,
lines 40-44): the vertex gets potential `Infinite` and predecessor `-1`. -/
def initStep (d : Bellman) (v : VerticeW) : Bellman :=
  { pot := mapInsert d.pot v.key Infinity.Infinite,
    pred := mapInsert d.pred v.key (-1) }

/-- The initialization phase of `find_shortest_path` (`bellman.rs`, lines
40-46): every stored vertex gets potential `Infinite` and predecessor `-1`,
then the start key gets potential `Number 0`. -/
def bellmanInit (g : DiGraphW) (start : Int) : Bellman :=
  let d := g.iter_vertices.foldl initStep Bellman.new
  { d with pot := mapInsert d.pot start (Infinity.Number 0) }

/-- One edge relaxation (`bellman.rs`, lines 52-60).  The potential lookups
and the `unwrap` at the update site are fallible and rendered with `Option`. -/
def relaxEdge (acc : Bellman × Bool) (p : Int × EdgeW) : Option (Bellman × Bool) :=
  let data := acc.1
  let change := acc.2
  let vkey := p.1
  let e := p.2
  let w := e.destiny_key
  match data.pot vkey, data.pot w with
  | some v_d, some w_d =>
    if Infinity.lt (v_d.add (.Number e.weight)) w_d then
      match v_d.unwrap with
      | some n =>
        some ({ pot := mapInsert data.pot w (Infinity.Number (n + e.weight)),
                pred := mapInsert data.pred w vkey }, true)
      | none => none
    else some (data, change)
  | _, _ => none

/-- The sequence of (origin key, edge) pairs visited by one relaxation pass:
all stored vertices in order, each with its outgoing edges in order. -/
def edgePairs (g : DiGraphW) : List (Int × EdgeW) :=
  (g.iter_vertices.map (fun v => v.edges.map (fun e => (v.key, e)))).flatten

/-- One full relaxation pass of `find_shortest_path` (`bellman.rs`, lines
48-62): fold `relaxEdge` over every (origin, edge) pair, starting with the
change flag reset to `false`. -/
def relaxPass (g : DiGraphW) (data : Bellman) : Option (Bellman × Bool) :=
  (edgePairs g).foldlM relaxEdge (data, false)

/-- The pass loop of `find_shortest_path` (`bellman.rs`, lines 47-66): up to
`fuel` passes, stopping early after a pass that changed nothing. -/
def bfLoop (g : DiGraphW) : Nat → Bellman → Option Bellman
  | 0, data => some data
  | fuel + 1, data => do
      let r ← relaxPass g data
      if r.2 then bfLoop g fuel r.1 else some r.1

/-- `find_shortest_path` (`bellman.rs`, lines 37-69): initialization followed
by up to `get_vertices_length` relaxation passes. -/
def find_shortest_path (g : DiGraphW) (start : Int) : Option Bellman :=
  bfLoop g g.get_vertices_length (bellmanInit g start)

/-- `bfLoop` instrumented with the number of relaxation passes actually
executed (a pass that fails or changes nothing is the last one counted). -/
def bfLoopCount (g : DiGraphW) : Nat → Bellman → Option Bellman × Nat
  | 0, data => (some data, 0)
  | fuel + 1, data =>
    match relaxPass g data with
    | none => (none, 1)
    | some (d', change) =>
      if change then
        let r := bfLoopCount g fuel d'
        (r.1, r.2 + 1)
      else (some d', 1)

/-- `find_shortest_path` instrumented with the executed pass count. -/
def findShortestPathCount (g : DiGraphW) (start : Int) : Option Bellman × Nat :=
  bfLoopCount g g.get_vertices_length (bellmanInit g start)

/-- `EdgeOf g u v w`: some stored vertex with key `u` holds an outgoing edge
to `v` of weight `w`. -/
def EdgeOf (g : DiGraphW) (u v w : Int) : Prop :=
  ∃ vt, vt ∈ g.vertices ∧ vt.key = u ∧ (⟨v, w⟩ : EdgeW) ∈ vt.edges

/-- `Walk g u x V c`: a walk from `u` to `x` whose successive targets are the
list `V` and whose edge weights sum to `c`. -/
inductive Walk (g : DiGraphW) : Int → Int → List Int → Int → Prop where
  | nil (u : Int) : Walk g u u [] 0
  | cons {u v x w : Int} {V : List Int} {c : Int} :
      EdgeOf g u v w → Walk g v x V c → Walk g u x (v :: V) (w + c)

/-- `v` is reachable from `s` by some walk. -/
def ReachW (g : DiGraphW) (s v : Int) : Prop := ∃ V c, Walk g s v V c

/-- `c` is the total weight of some walk from `s` to `v`. -/
def WalkWeight (g : DiGraphW) (s v : Int) (c : Int) : Prop := ∃ V, Walk g s v V c

/-- No negative-weight cycle is reachable from `s`: every closed walk at a
vertex reachable from `s` has nonnegative total weight. -/
def NoNegCycleFrom (g : DiGraphW) (s : Int) : Prop :=
  ∀ x V c, ReachW g s x → Walk g x x V c → 0 ≤ c

/-- Storage invariant of the real graph store: every stored edge points at a
stored vertex. -/
def ClosedGraph (g : DiGraphW) : Prop :=
  ∀ vt ∈ g.vertices, ∀ e ∈ vt.edges, e.destiny_key ∈ g.keys

/-- Storage invariants of the real graph store: closedness plus unique vertex
keys. -/
def WFGraph (g : DiGraphW) : Prop := ClosedGraph g ∧ g.keys.Nodup

instance (g : DiGraphW) : Decidable (ClosedGraph g) := by
  unfold ClosedGraph; infer_instance

instance (g : DiGraphW) : Decidable (WFGraph g) := by
  unfold WFGraph; infer_instance

/-- Ghost state: total predecessor and potential maps. -/
structure BellmanT where
  pred : Int → Int
  pot : Int → Infinity

/-- Ghost image of the initialized solver state. -/
def initT (s : Int) : BellmanT :=
  ⟨fun _ => -1, fun v => if v = s then .Number 0 else .Infinite⟩

/-- Ghost image of one edge relaxation. -/
def relaxT (acc : BellmanT × Bool) (p : Int × EdgeW) : BellmanT × Bool :=
  let data := acc.1
  let e := p.2
  let w := e.destiny_key
  if Infinity.lt ((data.pot p.1).add (.Number e.weight)) (data.pot w) then
    match data.pot p.1 with
    | .Number n =>
        (⟨fun x => if x = w then p.1 else data.pred x,
          fun x => if x = w then .Number (n + e.weight) else data.pot x⟩, true)
    | .Infinite => acc
  else acc

/-- Ghost image of one relaxation pass. -/
def passT (g : DiGraphW) (t : BellmanT) : BellmanT × Bool :=
  (edgePairs g).foldl relaxT (t, false)

/-- Ghost image of the pass loop. -/
def bfLoopT (g : DiGraphW) : Nat → BellmanT → BellmanT
  | 0, t => t
  | fuel + 1, t =>
    let r := passT g t
    if r.2 then bfLoopT g fuel r.1 else r.1

/-- Ghost image of `find_shortest_path`. -/
def findT (g : DiGraphW) (s : Int) : BellmanT :=
  bfLoopT g g.get_vertices_length (initT s)

/-- The simulation relation: on the vertex keys (plus the start key for
potentials) the fallible maps hold exactly the ghost values. -/
def Sim (g : DiGraphW) (s : Int) (o : Bellman) (t : BellmanT) : Prop :=
  (∀ v, (v ∈ g.keys ∨ v = s) → o.pot v = some (t.pot v)) ∧
  (∀ v ∈ g.keys, o.pred v = some (t.pred v))

/-- Every finite ghost potential is witnessed by a walk of that weight from
the source. -/
def PotSound (g : DiGraphW) (s : Int) (t : BellmanT) : Prop :=
  ∀ v n, t.pot v = .Number n → WalkWeight g s v n

/-- The ghost source potential never exceeds zero. -/
def PotSrc (s : Int) (t : BellmanT) : Prop :=
  Infinity.le (t.pot s) (.Number 0)

/-- After enough passes, every walk from the source of bounded length bounds
the ghost potential of its endpoint. -/
def BoundK (g : DiGraphW) (s : Int) (t : BellmanT) (k : Nat) : Prop :=
  ∀ v V c, Walk g s v V c → V.length ≤ k → Infinity.le (t.pot v) (.Number c)

/-- No edge of the graph can be relaxed in state `t`. -/
def NoRelax (g : DiGraphW) (t : BellmanT) : Prop :=
  ∀ p ∈ edgePairs g,
    Infinity.lt ((t.pot p.1).add (.Number p.2.weight)) (t.pot p.2.destiny_key) = false

/-- The Scenario A graph: vertices {1,2,3,4} with edges (1→2,w=1), (2→3,w=2),
(1→3,w=5), (3→4,w=−1); each edge is stored on its origin vertex, in input
order. -/
def scenarioA : DiGraphW :=
  ⟨4, [⟨1, [⟨2, 1⟩, ⟨3, 5⟩]⟩, ⟨2, [⟨3, 2⟩]⟩, ⟨3, [⟨4, -1⟩]⟩, ⟨4, []⟩]⟩

/-- The counterexample graph for C1: vertex 1 with a weight-1 edge to vertex
2, but declared vertex count 0, so the pass loop of `find_shortest_path`
executes zero relaxation passes. -/
def gBadC1 : DiGraphW := ⟨0, [⟨1, [⟨2, 1⟩]⟩, ⟨2, []⟩]⟩

/-- A well-formed one-vertex graph, used as a witness input. -/
def gUnitC1 : DiGraphW := ⟨1, [⟨1, []⟩]⟩

/-- `graph.rs`, lines 10-15: an unweighted directed edge with destination and
origin keys and its process-unique id (from the module-level counter). -/
structure Edge where
  destiny_key : Int
  origin_key : Int
  id : Nat
deriving DecidableEq, Repr

/-- `graph.rs`, lines 61-64: a vertex with its key and its outgoing edges in
insertion order. -/
structure Vertice where
  key : Int
  edges : List Edge
deriving DecidableEq, Repr

/-- `Vertice::new` (`graph.rs`, lines 66-71): a fresh vertex has no edges. -/
def Vertice.new (vertice_key : Int) : Vertice := ⟨vertice_key, []⟩

/-- `graph.rs`, lines 95-99: the adjacency-list digraph: declared vertex and
edge counts plus the key-indexed vertex store, rendered as an association
list with at most one binding per key. -/
structure DiGraph where
  vertices_num : Nat
  edges_num : Nat
  vertices : List (Int × Vertice)
deriving DecidableEq, Repr

/-- Hash-map lookup on the association-list store. -/
def lookupA {β : Type} : List (Int × β) → Int → Option β
  | [], _ => none
  | (k, v) :: t, x => if k = x then some v else lookupA t x

/-- Hash-map insert on the association-list store: overwrite the binding in
place, or append a new one. -/
def insertA {β : Type} : List (Int × β) → Int → β → List (Int × β)
  | [], k, v => [(k, v)]
  | (k', v') :: t, k, v =>
    if k' = k then (k, v) :: t else (k', v') :: insertA t k v

/-- `vertice_exists` (`graph.rs`, lines 139-141). -/
def DiGraph.vertice_exists (g : DiGraph) (vert_key : Int) : Bool :=
  (lookupA g.vertices vert_key).isSome

/-- `add_vertice` (`graph.rs`, lines 143-147): build a fresh vertex and
insert it under its key — unconditionally, overwriting any existing
binding. -/
def DiGraph.add_vertice (g : DiGraph) (vertice_key : Int) : DiGraph :=
  { g with vertices := insertA g.vertices vertice_key (Vertice.new vertice_key) }

/-- `get_edges` (`graph.rs`, lines 203-213): `none` for an absent vertex,
otherwise a clone of its edge list. -/
def DiGraph.get_edges (g : DiGraph) (vertice_key : Int) : Option (List Edge) :=
  (lookupA g.vertices vertice_key).map (fun v => v.edges)

/-- Modelled from the spec: the weighted edge of `edge.rs` (not among the
sources): a process-unique id, origin and destination keys, and a signed
weight.  `Vertice::remove_edge` reads the keys and the weight. -/
structure EdgeV where
  id : Nat
  origin_key : Int
  destiny_key : Int
  weight : Int
deriving DecidableEq, Repr

/-- `vertice.rs`, lines 8-13: a vertex of the weighted parallel-edge
representation: a key plus forward and backward edge maps keyed by
(origin, destination) pairs. -/
structure VerticeV where
  key : Int
  edges : Int × Int → Option (List EdgeV)
  back_edges : Int × Int → Option (List EdgeV)

/-- Hash-map `remove_entry` on a function-rendered map. -/
def mapErase {α β : Type} [DecidableEq α] (m : α → Option β) (k : α) :
    α → Option β :=
  fun x => if x = k then none else m x

/-- `Vertice::remove_edge` (`vertice.rs`, lines 172-185): take the entry for
the edge's (origin, destination) pair; keep only the stored edges whose
weight differs from the given one; re-insert the survivors unless none are
left. -/
def VerticeV.remove_edge (vt : VerticeV) (e : EdgeV) : VerticeV :=
  let v := e.origin_key
  let w := e.destiny_key
  match vt.edges (v, w) with
  | none => vt
  | some edges =>
    let filtered_edges := edges.filter (fun edge => edge.weight != e.weight)
    let edges' := mapErase vt.edges (v, w)
    if filtered_edges.isEmpty then { vt with edges := edges' }
    else { vt with edges := mapInsert edges' (v, w) filtered_edges }

/-- The four DFS edge classes, with the source's naming: Arvore = Tree,
Retorno = Back, Avanco = Forward, Cruzamento = Cross. -/
inductive DfsClassification where
  | Arvore
  | Retorno
  | Avanco
  | Cruzamento
deriving DecidableEq, Repr

/-- The per-vertex DFS state machine of the spec. -/
inductive VisitStatus where
  | Unvisited
  | Discovered
  | Finished
deriving DecidableEq, Repr

/-- Modelled from the spec: the DFS bookkeeping structure of `busca.rs` (not
among the sources): per-vertex status, discovery and finish timestamps drawn
from one global counter, discovery-forest parents, the set of processed edge
ids, and the per-edge classification. -/
structure DfsStruct where
  status : Int → VisitStatus
  tempo_descoberta : Int → Option Nat
  tempo_termino : Int → Option Nat
  fathers : Int → Option Int
  arestas_marked : Nat → Bool
  classifications : Nat → Option DfsClassification
  counter : Nat

/-- Modelled from the spec: fresh bookkeeping: everything unvisited,
unmarked and unclassified. -/
def DfsStruct.new : DfsStruct :=
  ⟨fun _ => .Unvisited, fun _ => none, fun _ => none, fun _ => none,
   fun _ => false, fun _ => none, 0⟩

/-- Modelled from the spec: visited = not `Unvisited`. -/
def DfsStruct.already_visited (d : DfsStruct) (k : Int) : Bool :=
  d.status k != VisitStatus.Unvisited

/-- Modelled from the spec: explored = `Finished`. -/
def DfsStruct.already_explored (d : DfsStruct) (k : Int) : Bool :=
  d.status k == VisitStatus.Finished

/-- Modelled from the spec: mark discovered and record the discovery
timestamp from the global counter. -/
def DfsStruct.start_exploring (d : DfsStruct) (k : Int) : DfsStruct :=
  { d with
    status := fun x => if x = k then .Discovered else d.status x,
    tempo_descoberta := fun x => if x = k then some d.counter else d.tempo_descoberta x,
    counter := d.counter + 1 }

/-- Modelled from the spec: mark finished and record the finish timestamp. -/
def DfsStruct.finish_exploring (d : DfsStruct) (k : Int) : DfsStruct :=
  { d with
    status := fun x => if x = k then .Finished else d.status x,
    tempo_termino := fun x => if x = k then some d.counter else d.tempo_termino x,
    counter := d.counter + 1 }

def DfsStruct.is_aresta_marked (d : DfsStruct) (id : Nat) : Bool :=
  d.arestas_marked id

/-- `dfs_data.arestas_marked.insert(id, true)` (`graph.rs`, line 272). -/
def DfsStruct.mark_aresta (d : DfsStruct) (id : Nat) : DfsStruct :=
  { d with arestas_marked := fun x => if x = id then true else d.arestas_marked x }

/-- Modelled from the spec: record the edge's classification under its id. -/
def DfsStruct.classificate_aresta (d : DfsStruct) (e : Edge)
    (c : DfsClassification) : DfsStruct :=
  { d with classifications := fun x => if x = e.id then some c else d.classifications x }

/-- `dfs_data.fathers.insert(child, parent)` (`graph.rs`, line 275). -/
def DfsStruct.set_father (d : DfsStruct) (child parent : Int) : DfsStruct :=
  { d with fathers := fun x => if x = child then some parent else d.fathers x }

/-- Modelled from the spec: pick the next unexplored root deterministically
in ascending key order (the spec mandates a fixed, reproducible order);
`-1` when every stored vertex has been visited. -/
def DfsStruct.get_unexplored_vertice (d : DfsStruct) (g : DiGraph) : Int :=
  match ((g.vertices.map (fun p => p.1)).filter
      (fun k => ! d.already_visited k)).min? with
  | some k => k
  | none => -1

/-- Stable insertion of an edge into a list sorted by destination key: the
new edge goes after every edge with destination ≤ its own. -/
def insertByDest (a : Edge) : List Edge → List Edge
  | [] => [a]
  | b :: t =>
    if b.destiny_key ≤ a.destiny_key then b :: insertByDest a t else a :: b :: t

/-- `arestas.sort()` (`graph.rs`, line 265) under the `Ord` instance of
lines 47-51, which compares destination keys only; Rust's sort is stable, as
is this insertion sort. -/
def sortEdges : List Edge → List Edge
  | [] => []
  | a :: t => insertByDest a (sortEdges t)

/-- The edge loop of `explore_dfs_vertice` (`graph.rs`, lines 266-293):
process the sorted edges in order, skipping those already marked; the first
unmarked edge to an unvisited vertex becomes a Tree edge and stops the loop,
returning the discovered child; other unmarked edges are classified Back
(target discovered, not finished), Forward (target finished, discovered
later than the current vertex) or Cross (target finished, discovered
earlier), comparing discovery timestamps whose fallible lookups are rendered
with `Option`. -/
def processEdges (d : DfsStruct) (vertice_key : Int) :
    List Edge → Option (DfsStruct × Option Int)
  | [] => some (d, none)
  | a :: rest =>
    if d.is_aresta_marked a.id then processEdges d vertice_key rest
    else
      let d := d.mark_aresta a.id
      if d.already_visited a.destiny_key then
        if d.already_explored a.destiny_key then
          match d.tempo_descoberta vertice_key, d.tempo_descoberta a.destiny_key with
          | some tv, some ta =>
            if tv < ta then
              processEdges (d.classificate_aresta a .Avanco) vertice_key rest
            else
              processEdges (d.classificate_aresta a .Cruzamento) vertice_key rest
          | _, _ => none
        else
          processEdges (d.classificate_aresta a .Retorno) vertice_key rest
      else
        some ((d.set_father a.destiny_key vertice_key).classificate_aresta a .Arvore,
          some a.destiny_key)

/-- Lines 255-257 of `graph.rs`: start exploring the popped vertex unless it
was already visited. -/
def visitTop (d : DfsStruct) (vertice_key : Int) : DfsStruct :=
  if d.already_visited vertice_key then d else d.start_exploring vertice_key

/-- The stack loop of `explore_dfs_vertice` (`graph.rs`, lines 252-298),
with explicit fuel; the `Vec` stack is rendered head-as-top.  Note the loop
pops the top vertex at the start of each iteration (it does not peek), and
the extra pop after `finish_exploring` acts on the remaining stack. -/
def exploreLoop (g : DiGraph) : Nat → List Int → DfsStruct → Option DfsStruct
  | 0, _, _ => none
  | _ + 1, [], d => some d
  | fuel + 1, vertice_key :: rest, d =>
    match g.get_edges vertice_key with
    | none => exploreLoop g fuel rest.tail
        ((visitTop d vertice_key).finish_exploring vertice_key)
    | some arestas =>
      match processEdges (visitTop d vertice_key) vertice_key (sortEdges arestas) with
      | none => none
      | some (d, some child) => exploreLoop g fuel (child :: rest) d
      | some (d, none) => exploreLoop g fuel rest.tail (d.finish_exploring vertice_key)

/-- Fuel sufficient for the explore loop: each iteration either marks a new
edge or shrinks the stack. -/
def dfsFuel (g : DiGraph) : Nat :=
  2 * (g.vertices.map (fun p => p.2.edges.length)).sum + 2 * g.vertices.length + 2

/-- `explore_dfs_vertice` (`graph.rs`, lines 243-299): run the stack loop
from a singleton stack. -/
def explore_dfs_vertice (g : DiGraph) (search_key : Int) (d : DfsStruct) :
    Option DfsStruct :=
  exploreLoop g (dfsFuel g) [search_key] d

/-- The driver loop of `dfs_search` (`graph.rs`, lines 237-240): explore from
the current key, then move to the next unexplored vertex until the sentinel
`-1`. -/
def dfsLoop (g : DiGraph) : Nat → Int → DfsStruct → Option DfsStruct
  | 0, _, _ => none
  | fuel + 1, search_key, d =>
    if search_key = -1 then some d
    else
      match explore_dfs_vertice g search_key d with
      | none => none
      | some d' => dfsLoop g fuel (d'.get_unexplored_vertice g) d'

/-- `dfs_search` (`graph.rs`, lines 235-242). -/
def dfs_search (g : DiGraph) (search_key : Int) : Option DfsStruct :=
  dfsLoop g (g.vertices.length + 2) search_key DfsStruct.new

/-- The C4 counterexample graph: vertex 1 with one outgoing edge. -/
def gC4 : DiGraph := ⟨2, 1, [(1, ⟨1, [⟨2, 1, 0⟩]⟩), (2, ⟨2, []⟩)]⟩

/-- The C5 witness vertex: parallel edges (1→2, weight 5) and (1→2,
weight 7). -/
def eW5 : EdgeV := ⟨0, 1, 2, 5⟩

/-- The second parallel edge of the C5 witness. -/
def eW7 : EdgeV := ⟨1, 1, 2, 7⟩

/-- The C5 witness vertex holding both parallel edges. -/
def vt57 : VerticeV :=
  ⟨1, fun p => if p = (1, 2) then some [eW5, eW7] else none, fun _ => none⟩

/-- The C2 failing input: vertices {1,2,3}, edges (1→2, id 0) and
(1→3, id 1), both stored on vertex 1. -/
def gC2 : DiGraph :=
  ⟨3, 2, [(1, ⟨1, [⟨2, 1, 0⟩, ⟨3, 1, 1⟩]⟩), (2, ⟨2, []⟩), (3, ⟨3, []⟩)]⟩

/-- State-threading `get_edges` (`graph.rs`, lines 203-213): a read-only
clone of the vertex's edges; the store comes back unchanged. -/
def DiGraph.get_edgesSt (g : DiGraph) (k : Int) : Option (List Edge) × DiGraph :=
  (g.get_edges k, g)

/-- State-threading `iter_vertices` of the weighted store: a read-locked
iteration; the store comes back unchanged. -/
def DiGraphW.iter_verticesSt (g : DiGraphW) : List VerticeW × DiGraphW :=
  (g.iter_vertices, g)

/-- State-threading stack loop of `explore_dfs_vertice`. -/
def exploreLoopSt : Nat → DiGraph → List Int → DfsStruct →
    Option DfsStruct × DiGraph
  | 0, g, _, _ => (none, g)
  | _ + 1, g, [], d => (some d, g)
  | fuel + 1, g, vertice_key :: rest, d =>
    match DiGraph.get_edgesSt g vertice_key with
    | (none, g') => exploreLoopSt fuel g' rest.tail
        ((visitTop d vertice_key).finish_exploring vertice_key)
    | (some arestas, g') =>
      match processEdges (visitTop d vertice_key) vertice_key (sortEdges arestas) with
      | none => (none, g')
      | some (d, some child) => exploreLoopSt fuel g' (child :: rest) d
      | some (d, none) => exploreLoopSt fuel g' rest.tail (d.finish_exploring vertice_key)

/-- State-threading driver loop of `dfs_search`. -/
def dfsLoopSt : Nat → DiGraph → Int → DfsStruct → Option DfsStruct × DiGraph
  | 0, g, _, _ => (none, g)
  | fuel + 1, g, search_key, d =>
    if search_key = -1 then (some d, g)
    else
      match exploreLoopSt (dfsFuel g) g [search_key] d with
      | (none, g') => (none, g')
      | (some d', g') => dfsLoopSt fuel g' (d'.get_unexplored_vertice g') d'

/-- State-threading `dfs_search`. -/
def dfs_searchSt (g : DiGraph) (search_key : Int) : Option DfsStruct × DiGraph :=
  dfsLoopSt (g.vertices.length + 2) g search_key DfsStruct.new

/-- State-threading initialization phase of `find_shortest_path`. -/
def bellmanInitSt (g : DiGraphW) (start : Int) : Bellman × DiGraphW :=
  match g.iter_verticesSt with
  | (vs, g') =>
    let d := vs.foldl initStep Bellman.new
    ({ d with pot := mapInsert d.pot start (Infinity.Number 0) }, g')

/-- State-threading relaxation pass. -/
def relaxPassSt (g : DiGraphW) (data : Bellman) : Option (Bellman × Bool) × DiGraphW :=
  match g.iter_verticesSt with
  | (vs, g') =>
    (((vs.map (fun v => v.edges.map (fun e => (v.key, e)))).flatten).foldlM
      relaxEdge (data, false), g')

/-- State-threading pass loop. -/
def bfLoopSt : Nat → DiGraphW → Bellman → Option Bellman × DiGraphW
  | 0, g, data => (some data, g)
  | fuel + 1, g, data =>
    match relaxPassSt g data with
    | (none, g') => (none, g')
    | (some (d', change), g') =>
      if change then bfLoopSt fuel g' d' else (some d', g')

/-- State-threading `find_shortest_path`. -/
def find_shortest_pathSt (g : DiGraphW) (start : Int) : Option Bellman × DiGraphW :=
  match bellmanInitSt g start with
  | (data, g') => bfLoopSt g'.get_vertices_length g' data

/-! ## Theorems -/

theorem Infinity.lt_irrefl (a : Infinity) : Infinity.lt a a = false := by
  cases a <;> simp [Infinity.lt]

theorem Infinity.le_refl (a : Infinity) : Infinity.le a a = true := by
  cases a <;> simp [Infinity.le]

theorem Infinity.not_lt_infinite (a : Infinity) : Infinity.lt Infinity.Infinite a = false := by
  cases a <;> rfl

theorem Infinity.le_trans {a b c : Infinity} (h₁ : Infinity.le a b) (h₂ : Infinity.le b c) :
    Infinity.le a c := by
  cases a <;> cases b <;> cases c <;> simp_all [Infinity.le] <;> omega

theorem Infinity.le_of_lt {a b : Infinity} (h : Infinity.lt a b) : Infinity.le a b := by
  cases a <;> cases b <;> simp_all [Infinity.le, Infinity.lt] <;> omega

theorem Infinity.le_infinite (a : Infinity) : Infinity.le a Infinity.Infinite := by
  cases a <;> simp [Infinity.le]

theorem Infinity.add_number_mono {a b : Infinity} (w : Int) (h : Infinity.le a b) :
    Infinity.le (a.add (.Number w)) (b.add (.Number w)) := by
  cases a <;> cases b <;> simp_all [Infinity.le, Infinity.add] <;> omega

theorem Infinity.add_number_add {a : Infinity} (w c : Int) :
    (a.add (.Number w)).add (.Number c) = a.add (.Number (w + c)) := by
  cases a <;> simp [Infinity.add, Int.add_assoc]

theorem Infinity.add_number_zero (a : Infinity) : a.add (.Number 0) = a := by
  cases a <;> simp [Infinity.add]

theorem Infinity.le_number_iff {a : Infinity} {c : Int} :
    Infinity.le a (.Number c) = true ↔ ∃ n, a = Infinity.Number n ∧ n ≤ c := by
  cases a <;> simp [Infinity.le]

/-- If the guard `b > a` of the relaxation fails, then `b ≤ a`. -/
theorem Infinity.le_of_not_lt {a b : Infinity} (h : Infinity.lt a b = false) :
    Infinity.le b a := by
  cases a <;> cases b <;> simp_all [Infinity.le, Infinity.lt] <;> omega

theorem initFold_pot (l : List VerticeW) (d : Bellman) (v : Int) :
    (l.foldl initStep d).pot v =
      if v ∈ l.map (fun vt => vt.key) then some Infinity.Infinite else d.pot v := by
  induction l generalizing d with
  | nil => simp
  | cons x t ih =>
    simp only [List.foldl_cons, ih, List.map_cons, List.mem_cons]
    by_cases hvt : v ∈ t.map (fun vt => vt.key)
    · simp [hvt]
    · by_cases hvx : v = x.key <;> simp [hvt, hvx, initStep, mapInsert]

theorem initFold_pred (l : List VerticeW) (d : Bellman) (v : Int) :
    (l.foldl initStep d).pred v =
      if v ∈ l.map (fun vt => vt.key) then some (-1) else d.pred v := by
  induction l generalizing d with
  | nil => simp
  | cons x t ih =>
    simp only [List.foldl_cons, ih, List.map_cons, List.mem_cons]
    by_cases hvt : v ∈ t.map (fun vt => vt.key)
    · simp [hvt]
    · by_cases hvx : v = x.key <;> simp [hvt, hvx, initStep, mapInsert]

theorem bellmanInit_pot (g : DiGraphW) (s v : Int) :
    (bellmanInit g s).pot v =
      if v = s then some (Infinity.Number 0)
      else if v ∈ g.keys then some Infinity.Infinite else none := by
  unfold bellmanInit
  by_cases hvs : v = s <;>
    simp [hvs, mapInsert, initFold_pot, DiGraphW.iter_vertices, DiGraphW.keys, Bellman.new]

theorem bellmanInit_pred (g : DiGraphW) (s v : Int) :
    (bellmanInit g s).pred v =
      if v ∈ g.keys then some (-1) else none := by
  unfold bellmanInit
  simp [initFold_pred, DiGraphW.iter_vertices, DiGraphW.keys, Bellman.new]

/-- Membership in the pass's edge enumeration. -/
theorem mem_edgePairs {g : DiGraphW} {p : Int × EdgeW} :
    p ∈ edgePairs g ↔ ∃ vt, vt ∈ g.vertices ∧ vt.key = p.1 ∧ p.2 ∈ vt.edges := by
  constructor
  · intro hp
    rcases List.mem_flatten.mp hp with ⟨l, hl, hpl⟩
    rcases List.mem_map.mp hl with ⟨vt, hvt, rfl⟩
    rcases List.mem_map.mp hpl with ⟨e, he, rfl⟩
    exact ⟨vt, hvt, rfl, he⟩
  · rintro ⟨vt, hvt, h1, h2⟩
    refine List.mem_flatten.mpr ⟨vt.edges.map (fun e => (vt.key, e)), ?_, ?_⟩
    · exact List.mem_map.mpr ⟨vt, hvt, rfl⟩
    · refine List.mem_map.mpr ⟨p.2, h2, ?_⟩
      rw [h1]

/-- `EdgeOf` is exactly membership in the pass's edge enumeration. -/
theorem edgeOf_iff_mem {g : DiGraphW} {u v w : Int} :
    EdgeOf g u v w ↔ (u, (⟨v, w⟩ : EdgeW)) ∈ edgePairs g := by
  rw [mem_edgePairs]; rfl

/-- On a closed graph, both endpoints of an enumerated pair are vertex keys. -/
theorem edgePairs_keys {g : DiGraphW} (hg : ClosedGraph g) {p : Int × EdgeW}
    (hp : p ∈ edgePairs g) : p.1 ∈ g.keys ∧ p.2.destiny_key ∈ g.keys := by
  rcases mem_edgePairs.mp hp with ⟨vt, hvt, h1, h2⟩
  exact ⟨h1 ▸ List.mem_map.mpr ⟨vt, hvt, rfl⟩, hg vt hvt p.2 h2⟩

theorem sim_init (g : DiGraphW) (s : Int) : Sim g s (bellmanInit g s) (initT s) := by
  constructor
  · intro v hv
    rcases hv with hv | hv
    · by_cases hvs : v = s <;> simp [bellmanInit_pot, initT, hv, hvs]
    · simp [bellmanInit_pot, initT, hv]
  · intro v hv
    simp [bellmanInit_pred, initT, hv]

theorem sim_relax {g : DiGraphW} {s : Int} {o : Bellman} {t : BellmanT}
    (hsim : Sim g s o t) (p : Int × EdgeW)
    (hp1 : p.1 ∈ g.keys) (hp2 : p.2.destiny_key ∈ g.keys) (ch : Bool) :
    ∃ o', relaxEdge (o, ch) p = some (o', (relaxT (t, ch) p).2) ∧
      Sim g s o' (relaxT (t, ch) p).1 := by
  obtain ⟨hpot, hpred⟩ := hsim
  have h1 : o.pot p.1 = some (t.pot p.1) := hpot _ (Or.inl hp1)
  have h2 : o.pot p.2.destiny_key = some (t.pot p.2.destiny_key) := hpot _ (Or.inl hp2)
  by_cases hguard :
      Infinity.lt ((t.pot p.1).add (.Number p.2.weight)) (t.pot p.2.destiny_key) = true
  · match hv : t.pot p.1 with
    | .Infinite =>
      rw [hv] at hguard
      rw [show Infinity.Infinite.add (.Number p.2.weight) = Infinity.Infinite from rfl,
        Infinity.not_lt_infinite] at hguard
      exact absurd hguard (by simp)
    | .Number n =>
      rw [hv] at hguard
      have hT : relaxT (t, ch) p =
          (⟨fun x => if x = p.2.destiny_key then p.1 else t.pred x,
            fun x => if x = p.2.destiny_key then Infinity.Number (n + p.2.weight)
              else t.pot x⟩, true) := by
        simp only [relaxT]
        rw [hv]
        simp [hguard]
      have hE : relaxEdge (o, ch) p =
          some (⟨mapInsert o.pred p.2.destiny_key p.1,
                 mapInsert o.pot p.2.destiny_key (.Number (n + p.2.weight))⟩, true) := by
        simp only [relaxEdge]
        rw [h1, h2, hv]
        simp [hguard, Infinity.unwrap]
      refine ⟨⟨mapInsert o.pred p.2.destiny_key p.1,
               mapInsert o.pot p.2.destiny_key (.Number (n + p.2.weight))⟩, ?_, ?_, ?_⟩
      · rw [hE, hT]
      · intro v hvk
        rw [hT]
        by_cases hveq : v = p.2.destiny_key <;>
          simp [mapInsert, hveq, hpot v hvk]
      · intro v hvk
        rw [hT]
        by_cases hveq : v = p.2.destiny_key <;>
          simp [mapInsert, hveq, hpred v hvk]
  · have hg' : Infinity.lt ((t.pot p.1).add (.Number p.2.weight))
        (t.pot p.2.destiny_key) = false := by
      simpa using hguard
    have hT : relaxT (t, ch) p = (t, ch) := by
      simp only [relaxT]
      rw [hg']
      simp
    have hE : relaxEdge (o, ch) p = some (o, ch) := by
      simp only [relaxEdge]
      rw [h1, h2]
      simp [hg']
    refine ⟨o, ?_, ?_, ?_⟩
    · rw [hE, hT]
    · intro v hvk
      rw [hT]
      exact hpot v hvk
    · intro v hvk
      rw [hT]
      exact hpred v hvk

theorem sim_foldl {g : DiGraphW} {s : Int} (hg : ClosedGraph g) :
    ∀ (l : List (Int × EdgeW)), (∀ p ∈ l, p ∈ edgePairs g) →
    ∀ (o : Bellman) (t : BellmanT) (ch : Bool), Sim g s o t →
      ∃ o', l.foldlM relaxEdge (o, ch) = some (o', (l.foldl relaxT (t, ch)).2) ∧
        Sim g s o' (l.foldl relaxT (t, ch)).1 := by
  intro l
  induction l with
  | nil => intro _ o t ch hsim; exact ⟨o, rfl, hsim⟩
  | cons p l ih =>
    intro hl o t ch hsim
    have hp := hl p (List.mem_cons_self p l)
    obtain ⟨hp1, hp2⟩ := edgePairs_keys hg hp
    obtain ⟨o₁, ho₁, hsim₁⟩ := sim_relax hsim p hp1 hp2 ch
    obtain ⟨o', ho', hsim'⟩ := ih (fun q hq => hl q (List.mem_cons_of_mem p hq))
      o₁ (relaxT (t, ch) p).1 (relaxT (t, ch) p).2 hsim₁
    refine ⟨o', ?_, ?_⟩
    · rw [List.foldlM_cons, ho₁]
      simpa using ho'
    · simpa using hsim'

theorem sim_bfLoop {g : DiGraphW} {s : Int} (hg : ClosedGraph g) :
    ∀ (fuel : Nat) (o : Bellman) (t : BellmanT), Sim g s o t →
      ∃ o', bfLoop g fuel o = some o' ∧ Sim g s o' (bfLoopT g fuel t) := by
  intro fuel
  induction fuel with
  | zero => intro o t hsim; exact ⟨o, rfl, hsim⟩
  | succ n ih =>
    intro o t hsim
    obtain ⟨o₁, ho₁, hsim₁⟩ := sim_foldl hg (edgePairs g) (fun _ hp => hp) o t false hsim
    by_cases hch : (passT g t).2 = true
    · obtain ⟨o', ho', hsim'⟩ := ih o₁ (passT g t).1 hsim₁
      refine ⟨o', ?_, ?_⟩
      · rw [bfLoop, relaxPass, ho₁]
        simp [passT] at hch ⊢
        simp [hch, ho']
      · simp only [bfLoopT, hch, if_pos]
        exact hsim'
    · have hch' : (passT g t).2 = false := by simpa using hch
      refine ⟨o₁, ?_, ?_⟩
      · rw [bfLoop, relaxPass, ho₁]
        simp [passT] at hch' ⊢
        simp [hch']
      · simp only [bfLoopT, hch', if_neg]
        simpa using hsim₁

/-- On a closed graph `find_shortest_path` cannot fail, and its result is
simulated by the ghost run. -/
theorem sim_find (g : DiGraphW) (s : Int) (hg : ClosedGraph g) :
    ∃ b, find_shortest_path g s = some b ∧ Sim g s b (findT g s) :=
  sim_bfLoop hg g.get_vertices_length (bellmanInit g s) (initT s) (sim_init g s)

theorem bfLoopCount_le (g : DiGraphW) (fuel : Nat) (data : Bellman) :
    (bfLoopCount g fuel data).2 ≤ fuel := by
  induction fuel generalizing data with
  | zero => simp [bfLoopCount]
  | succ n ih =>
    unfold bfLoopCount
    match h : relaxPass g data with
    | none => simp
    | some (d', change) =>
      cases change with
      | true => simpa using ih d'
      | false => simp

theorem bfLoopCount_fst (g : DiGraphW) (fuel : Nat) (data : Bellman) :
    (bfLoopCount g fuel data).1 = bfLoop g fuel data := by
  induction fuel generalizing data with
  | zero => simp [bfLoopCount, bfLoop]
  | succ n ih =>
    unfold bfLoopCount bfLoop
    match h : relaxPass g data with
    | none => simp [Option.bind]
    | some (d', change) =>
      cases change with
      | true => simpa using ih d'
      | false => simp

theorem Walk.wcast {g : DiGraphW} {u x : Int} {V : List Int} {c c' : Int}
    (h : Walk g u x V c) (hc : c = c') : Walk g u x V c' := hc ▸ h

theorem Walk.nil_inv {g : DiGraphW} {u x c : Int} (h : Walk g u x [] c) :
    x = u ∧ c = 0 := by
  cases h; exact ⟨rfl, rfl⟩

theorem Walk.single {g : DiGraphW} {u v w : Int} (he : EdgeOf g u v w) :
    Walk g u v [v] w :=
  (Walk.cons he (Walk.nil v)).wcast (by omega)

theorem Walk.append {g : DiGraphW} {u a x : Int} {Va Vb : List Int} {ca cb : Int}
    (h1 : Walk g u a Va ca) (h2 : Walk g a x Vb cb) :
    Walk g u x (Va ++ Vb) (ca + cb) := by
  induction h1 with
  | nil u => exact h2.wcast (by omega)
  | cons he _ ih => exact ((Walk.cons he (ih h2)).wcast (by omega))

theorem Walk.append_edge {g : DiGraphW} {s u v w : Int} {V : List Int} {c : Int}
    (h : Walk g s u V c) (he : EdgeOf g u v w) :
    Walk g s v (V ++ [v]) (c + w) :=
  h.append (Walk.single he)

theorem Walk.snoc_view {g : DiGraphW} {a x : Int} {V : List Int} {c : Int}
    (h : Walk g a x V c) (hV : V ≠ []) :
    ∃ u V' w c', Walk g a u V' c' ∧ EdgeOf g u x w ∧ V = V' ++ [x] ∧ c = c' + w := by
  induction h with
  | nil u => exact absurd rfl hV
  | cons he hw ih =>
    rename_i u v x w V c
    by_cases h0 : V = []
    · subst h0
      obtain ⟨hx, hc⟩ := hw.nil_inv
      subst hx; subst hc
      exact ⟨u, [], w, 0, Walk.nil u, he, rfl, by omega⟩
    · obtain ⟨u', V₁, w', c₁, hw1, he1, hVeq, hceq⟩ := ih h0
      exact ⟨u', v :: V₁, w', w + c₁, Walk.cons he hw1, he1, by rw [hVeq]; rfl, by omega⟩

theorem Walk.split {g : DiGraphW} {u x a : Int} {V₁ V₂ : List Int} {c : Int}
    {V : List Int} (h : Walk g u x V c) (hV : V = V₁ ++ a :: V₂) :
    ∃ c₁ c₂, Walk g u a (V₁ ++ [a]) c₁ ∧ Walk g a x V₂ c₂ ∧ c = c₁ + c₂ := by
  induction h generalizing V₁ with
  | nil u => simp at hV
  | cons he hw ih =>
    rename_i u v x w V c
    cases V₁ with
    | nil =>
      simp only [List.nil_append] at hV
      obtain ⟨hva, hVV⟩ := List.cons.injEq _ _ _ _ ▸ hV
      subst hva
      exact ⟨w, c, Walk.single he, hVV ▸ hw, rfl⟩
    | cons b V₁' =>
      simp only [List.cons_append] at hV
      obtain ⟨hvb, hVV⟩ := List.cons.injEq _ _ _ _ ▸ hV
      subst hvb
      obtain ⟨c₁, c₂, h1, h2, hc⟩ := ih hVV
      exact ⟨w + c₁, c₂, Walk.cons he h1, h2, by omega⟩

theorem Walk.targets_mem {g : DiGraphW} (hg : ClosedGraph g) {u x : Int}
    {V : List Int} {c : Int} (h : Walk g u x V c) : ∀ v ∈ V, v ∈ g.keys := by
  induction h with
  | nil u => simp
  | cons he hw ih =>
    intro y hy
    rcases List.mem_cons.mp hy with rfl | hy
    · rcases he with ⟨vt, hvt, _, hev⟩
      exact hg vt hvt _ hev
    · exact ih y hy

theorem Walk.weight_nonneg {g : DiGraphW}
    (hw : ∀ vt ∈ g.vertices, ∀ e ∈ vt.edges, 0 ≤ e.weight)
    {u x : Int} {V : List Int} {c : Int} (h : Walk g u x V c) : 0 ≤ c := by
  induction h with
  | nil u => omega
  | cons he hwalk ih =>
    rename_i u v x w V c
    rcases he with ⟨vt, hvt, _, hev⟩
    have hnn : (0 : Int) ≤ w := by simpa using hw vt hvt _ hev
    omega

/-- A graph all of whose edge weights are nonnegative has no negative cycle
anywhere, in particular none reachable from any source. -/
theorem noNegCycleFrom_of_nonneg (g : DiGraphW)
    (hw : ∀ vt ∈ g.vertices, ∀ e ∈ vt.edges, 0 ≤ e.weight) (s : Int) :
    NoNegCycleFrom g s :=
  fun _ _ _ _ hwalk => hwalk.weight_nonneg hw

/-- Characterization of one ghost relaxation step: either the guard held with
a finite origin potential and the maps were updated at the edge's target, or
the guard failed and nothing happened. -/
theorem relaxT_eq (acc : BellmanT × Bool) (p : Int × EdgeW) :
    (∃ n, acc.1.pot p.1 = .Number n ∧
      Infinity.lt (.Number (n + p.2.weight)) (acc.1.pot p.2.destiny_key) = true ∧
      relaxT acc p =
        (⟨fun x => if x = p.2.destiny_key then p.1 else acc.1.pred x,
          fun x => if x = p.2.destiny_key then .Number (n + p.2.weight)
            else acc.1.pot x⟩, true)) ∨
    (Infinity.lt ((acc.1.pot p.1).add (.Number p.2.weight))
        (acc.1.pot p.2.destiny_key) = false ∧
      relaxT acc p = acc) := by
  by_cases hguard : Infinity.lt ((acc.1.pot p.1).add (.Number p.2.weight))
      (acc.1.pot p.2.destiny_key) = true
  · match hv : acc.1.pot p.1 with
    | .Infinite =>
      rw [hv] at hguard
      rw [show Infinity.Infinite.add (.Number p.2.weight) = Infinity.Infinite from rfl,
        Infinity.not_lt_infinite] at hguard
      exact absurd hguard (by simp)
    | .Number n =>
      rw [hv] at hguard
      refine Or.inl ⟨n, rfl, ?_, ?_⟩
      · exact hguard
      · simp only [relaxT]
        rw [hv]
        simp [hguard]
  · have hg' : Infinity.lt ((acc.1.pot p.1).add (.Number p.2.weight))
        (acc.1.pot p.2.destiny_key) = false := by simpa using hguard
    refine Or.inr ⟨hg', ?_⟩
    simp only [relaxT]
    rw [hg']
    simp

theorem relaxT_pot_le (acc : BellmanT × Bool) (p : Int × EdgeW) (v : Int) :
    Infinity.le ((relaxT acc p).1.pot v) (acc.1.pot v) := by
  rcases relaxT_eq acc p with ⟨n, hv, hlt, heq⟩ | ⟨_, heq⟩
  · rw [heq]
    by_cases hveq : v = p.2.destiny_key
    · subst hveq
      simpa using Infinity.le_of_lt hlt
    · simp [hveq, Infinity.le_refl]
  · rw [heq]
    exact Infinity.le_refl _

theorem foldl_relaxT_pot_le (l : List (Int × EdgeW)) (acc : BellmanT × Bool) (v : Int) :
    Infinity.le ((l.foldl relaxT acc).1.pot v) (acc.1.pot v) := by
  induction l generalizing acc with
  | nil => exact Infinity.le_refl _
  | cons p t ih => exact Infinity.le_trans (ih (relaxT acc p)) (relaxT_pot_le acc p v)

theorem bfLoopT_pot_le (g : DiGraphW) (fuel : Nat) (t : BellmanT) (v : Int) :
    Infinity.le ((bfLoopT g fuel t).pot v) (t.pot v) := by
  induction fuel generalizing t with
  | zero => exact Infinity.le_refl _
  | succ n ih =>
    show Infinity.le ((if (passT g t).2 then bfLoopT g n (passT g t).1
      else (passT g t).1).pot v) (t.pot v)
    by_cases hch : (passT g t).2 = true
    · rw [hch, if_pos rfl]
      exact Infinity.le_trans (ih (passT g t).1) (foldl_relaxT_pot_le _ _ v)
    · rw [show (passT g t).2 = false by simpa using hch]
      simpa using foldl_relaxT_pot_le (edgePairs g) (t, false) v

theorem potSound_init (g : DiGraphW) (s : Int) : PotSound g s (initT s) := by
  intro v n hv
  simp only [initT] at hv
  by_cases hvs : v = s
  · subst hvs
    rw [if_pos rfl] at hv
    obtain rfl : (0 : Int) = n := by simpa using hv
    exact ⟨[], Walk.nil v⟩
  · rw [if_neg hvs] at hv
    simp at hv

theorem potSrc_init (s : Int) : PotSrc s (initT s) := by
  simp [PotSrc, initT, Infinity.le_refl]

theorem potSound_relaxT {g : DiGraphW} {s : Int} {acc : BellmanT × Bool}
    (hs : PotSound g s acc.1) {p : Int × EdgeW} (hp : p ∈ edgePairs g) :
    PotSound g s (relaxT acc p).1 := by
  rcases relaxT_eq acc p with ⟨m, hv, _, heq⟩ | ⟨_, heq⟩
  · rw [heq]
    intro v n hvn
    by_cases hveq : v = p.2.destiny_key
    · subst hveq
      simp only [if_pos rfl] at hvn
      obtain hn : m + p.2.weight = n := by simpa using hvn
      obtain ⟨V, hwalk⟩ := hs p.1 m hv
      have he : EdgeOf g p.1 p.2.destiny_key p.2.weight := by
        rcases mem_edgePairs.mp hp with ⟨vt, hvt, h1, h2⟩
        exact ⟨vt, hvt, h1, by simpa using h2⟩
      exact ⟨V ++ [p.2.destiny_key], (hwalk.append_edge he).wcast hn⟩
    · simp only [if_neg hveq] at hvn
      exact hs v n hvn
  · rw [heq]
    exact hs

theorem potSound_foldl {g : DiGraphW} {s : Int} :
    ∀ (l : List (Int × EdgeW)), (∀ p ∈ l, p ∈ edgePairs g) →
    ∀ (acc : BellmanT × Bool), PotSound g s acc.1 →
      PotSound g s (l.foldl relaxT acc).1 := by
  intro l
  induction l with
  | nil => intro _ acc hs; exact hs
  | cons p t ih =>
    intro hl acc hs
    exact ih (fun q hq => hl q (List.mem_cons_of_mem p hq)) (relaxT acc p)
      (potSound_relaxT hs (hl p (List.mem_cons_self p t)))

theorem potSound_bfLoopT {g : DiGraphW} {s : Int} :
    ∀ (fuel : Nat) (t : BellmanT), PotSound g s t → PotSound g s (bfLoopT g fuel t) := by
  intro fuel
  induction fuel with
  | zero => intro t hs; exact hs
  | succ n ih =>
    intro t hs
    show PotSound g s (if (passT g t).2 then bfLoopT g n (passT g t).1 else (passT g t).1)
    have hpass : PotSound g s (passT g t).1 :=
      potSound_foldl (edgePairs g) (fun _ hp => hp) (t, false) hs
    by_cases hch : (passT g t).2 = true
    · rw [hch, if_pos rfl]; exact ih _ hpass
    · rw [show (passT g t).2 = false by simpa using hch]; simpa using hpass

theorem potSrc_bfLoopT {g : DiGraphW} {s : Int} (fuel : Nat) {t : BellmanT}
    (hs : PotSrc s t) : PotSrc s (bfLoopT g fuel t) :=
  Infinity.le_trans (bfLoopT_pot_le g fuel t s) hs

theorem relaxT_step_bound (acc : BellmanT × Bool) (p : Int × EdgeW) :
    Infinity.le ((relaxT acc p).1.pot p.2.destiny_key)
      ((acc.1.pot p.1).add (.Number p.2.weight)) := by
  rcases relaxT_eq acc p with ⟨n, hv, _, heq⟩ | ⟨hg', heq⟩
  · rw [heq, hv]
    simp [Infinity.add, Infinity.le_refl]
  · rw [heq]
    exact Infinity.le_of_not_lt hg'

theorem passT_edge_bound (g : DiGraphW) (t : BellmanT) {p : Int × EdgeW}
    (hp : p ∈ edgePairs g) :
    Infinity.le ((passT g t).1.pot p.2.destiny_key)
      ((t.pot p.1).add (.Number p.2.weight)) := by
  obtain ⟨l₁, l₂, hsplit⟩ := List.append_of_mem hp
  have hpass : passT g t = l₂.foldl relaxT (relaxT (l₁.foldl relaxT (t, false)) p) := by
    rw [passT, hsplit, List.foldl_append, List.foldl_cons]
  rw [hpass]
  refine Infinity.le_trans (foldl_relaxT_pot_le l₂ _ _) ?_
  refine Infinity.le_trans (relaxT_step_bound _ p) ?_
  exact Infinity.add_number_mono _ (foldl_relaxT_pot_le l₁ (t, false) p.1)

theorem boundK_passT (g : DiGraphW) (s : Int) (t : BellmanT) (k : Nat)
    (hsrc : PotSrc s t) (hb : BoundK g s t k) :
    BoundK g s (passT g t).1 (k + 1) := by
  intro v V c hwalk hlen
  by_cases hV : V = []
  · subst hV
    obtain ⟨rfl, rfl⟩ := hwalk.nil_inv
    exact Infinity.le_trans (foldl_relaxT_pot_le (edgePairs g) (t, false) _) hsrc
  · obtain ⟨u, V', w, c', hw', he, hVeq, hceq⟩ := hwalk.snoc_view hV
    have hlen' : V'.length ≤ k := by
      subst hVeq; simp at hlen; omega
    have hu : Infinity.le (t.pot u) (.Number c') := hb u V' c' hw' hlen'
    have hedge := passT_edge_bound g t (edgeOf_iff_mem.mp he)
    refine Infinity.le_trans hedge ?_
    have := Infinity.add_number_mono w hu
    rw [show (Infinity.Number c').add (.Number w) = .Number c from by
      simp [Infinity.add]; omega] at this
    exact this

theorem relaxT_flag_true (acc : BellmanT × Bool) (p : Int × EdgeW)
    (h : acc.2 = true) : (relaxT acc p).2 = true := by
  rcases relaxT_eq acc p with ⟨_, _, _, heq⟩ | ⟨_, heq⟩ <;> rw [heq]
  all_goals first
  | rfl
  | exact h

theorem foldl_relaxT_flag_true (l : List (Int × EdgeW)) (acc : BellmanT × Bool)
    (h : acc.2 = true) : (l.foldl relaxT acc).2 = true := by
  induction l generalizing acc with
  | nil => exact h
  | cons p t ih => exact ih (relaxT acc p) (relaxT_flag_true acc p h)

theorem foldl_relaxT_no_change (l : List (Int × EdgeW)) (t : BellmanT)
    (h : (l.foldl relaxT (t, false)).2 = false) :
    l.foldl relaxT (t, false) = (t, false) ∧
      ∀ p ∈ l, Infinity.lt ((t.pot p.1).add (.Number p.2.weight))
        (t.pot p.2.destiny_key) = false := by
  induction l with
  | nil => exact ⟨rfl, by simp⟩
  | cons p l ih =>
    rcases relaxT_eq (t, false) p with ⟨n, hv, hlt, heq⟩ | ⟨hg', heq⟩
    · exfalso
      rw [List.foldl_cons, heq] at h
      rw [foldl_relaxT_flag_true l _ rfl] at h
      simp at h
    · rw [List.foldl_cons, heq] at h
      obtain ⟨h1, h2⟩ := ih h
      refine ⟨by rw [List.foldl_cons, heq, h1], ?_⟩
      intro q hq
      rcases List.mem_cons.mp hq with rfl | hq
      · exact hg'
      · exact h2 q hq

theorem passT_no_change {g : DiGraphW} {t : BellmanT} (h : (passT g t).2 = false) :
    (passT g t).1 = t ∧ NoRelax g t := by
  obtain ⟨h1, h2⟩ := foldl_relaxT_no_change (edgePairs g) t h
  exact ⟨by rw [passT, h1], h2⟩

theorem bfLoopT_bound (g : DiGraphW) (s : Int) :
    ∀ (fuel : Nat) (t : BellmanT) (k : Nat), PotSrc s t → BoundK g s t k →
      BoundK g s (bfLoopT g fuel t) (k + fuel) ∨ NoRelax g (bfLoopT g fuel t) := by
  intro fuel
  induction fuel with
  | zero =>
    intro t k _ hb
    left
    simpa using hb
  | succ n ih =>
    intro t k hsrc hb
    by_cases hch : (passT g t).2 = true
    · have hb' := boundK_passT g s t k hsrc hb
      have hsrc' : PotSrc s (passT g t).1 :=
        Infinity.le_trans (foldl_relaxT_pot_le (edgePairs g) (t, false) s) hsrc
      have hloop : bfLoopT g (n + 1) t = bfLoopT g n (passT g t).1 := by
        simp [bfLoopT, hch]
      rw [hloop]
      rcases ih (passT g t).1 (k + 1) hsrc' hb' with h | h
      · left
        intro v V c hw hl
        exact h v V c hw (by omega)
      · right
        exact h
    · have hch' : (passT g t).2 = false := by simpa using hch
      obtain ⟨heq, hnr⟩ := passT_no_change hch'
      have hloop : bfLoopT g (n + 1) t = (passT g t).1 := by
        simp [bfLoopT, hch']
      rw [hloop, heq]
      exact Or.inr hnr

theorem noRelax_walk_bound {g : DiGraphW} {t : BellmanT} (hnr : NoRelax g t)
    {u x : Int} {V : List Int} {c : Int} (h : Walk g u x V c) :
    Infinity.le (t.pot x) ((t.pot u).add (.Number c)) := by
  induction h with
  | nil u =>
    rw [Infinity.add_number_zero]
    exact Infinity.le_refl _
  | cons he hw ih =>
    rename_i u v x w V c
    have hguard := hnr (u, ⟨v, w⟩) (edgeOf_iff_mem.mp he)
    have h1 : Infinity.le (t.pot v) ((t.pot u).add (.Number w)) :=
      Infinity.le_of_not_lt hguard
    refine Infinity.le_trans ih ?_
    have h2 := Infinity.add_number_mono c h1
    rw [Infinity.add_number_add] at h2
    exact h2

theorem noRelax_full_bound {g : DiGraphW} {s : Int} {t : BellmanT}
    (hnr : NoRelax g t) (hsrc : PotSrc s t) :
    ∀ (v : Int) (V : List Int) (c : Int), Walk g s v V c →
      Infinity.le (t.pot v) (.Number c) := by
  intro v V c hw
  refine Infinity.le_trans (noRelax_walk_bound hnr hw) ?_
  have h2 := Infinity.add_number_mono c hsrc
  rw [show (Infinity.Number 0).add (.Number c) = .Number c from by
    simp [Infinity.add]] at h2
  exact h2

theorem not_nodup_split {α : Type} (l : List α) (h : ¬ l.Nodup) :
    ∃ l₁ a l₂, l = l₁ ++ a :: l₂ ∧ a ∈ l₂ := by
  induction l with
  | nil => simp at h
  | cons b t ih =>
    by_cases hb : b ∈ t
    · exact ⟨[], b, t, rfl, hb⟩
    · have ht : ¬ t.Nodup := fun hn => h (List.nodup_cons.mpr ⟨hb, hn⟩)
      obtain ⟨l₁, a, l₂, heq, ha⟩ := ih ht
      exact ⟨b :: l₁, a, l₂, by rw [heq]; rfl, ha⟩

theorem nodup_subset_length {l l' : List Int} (h : l.Nodup) (hs : l ⊆ l') :
    l.length ≤ l'.length := by
  classical
  calc l.length = l.toFinset.card := (List.toFinset_card_of_nodup h).symm
  _ ≤ l'.toFinset.card := Finset.card_le_card (fun x hx => by
      simp only [List.mem_toFinset] at hx ⊢
      exact hs hx)
  _ ≤ l'.length := l'.toFinset_card_le

theorem walk_shorten {g : DiGraphW} {s : Int} (hg : ClosedGraph g)
    (hnn : NoNegCycleFrom g s) :
    ∀ (m : Nat) (V : List Int) (x c : Int), V.length ≤ m → Walk g s x V c →
      ∃ V' c', Walk g s x V' c' ∧ V'.length ≤ g.keys.length ∧ c' ≤ c := by
  intro m
  induction m with
  | zero =>
    intro V x c hl hw
    exact ⟨V, c, hw, by omega, le_refl c⟩
  | succ m ih =>
    intro V x c hl hw
    by_cases hle : V.length ≤ g.keys.length
    · exact ⟨V, c, hw, hle, le_refl c⟩
    · have hsub : ∀ v ∈ V, v ∈ g.keys := hw.targets_mem hg
      have hnd : ¬ V.Nodup := fun hnod => hle (nodup_subset_length hnod hsub)
      obtain ⟨V₁, a, V₂, hVeq, haV₂⟩ := not_nodup_split V hnd
      obtain ⟨c₁, c₂, hw1, hw2, hc⟩ := hw.split hVeq
      obtain ⟨V₃, V₄, hV₂eq⟩ := List.append_of_mem haV₂
      obtain ⟨c₃, c₄, hwc, hw3, hc₂⟩ := hw2.split hV₂eq
      have hreach : ReachW g s a := ⟨V₁ ++ [a], c₁, hw1⟩
      have h0c₃ : 0 ≤ c₃ := hnn a (V₃ ++ [a]) c₃ hreach hwc
      have hw' : Walk g s x ((V₁ ++ [a]) ++ V₄) (c₁ + c₄) := hw1.append hw3
      have hlen' : ((V₁ ++ [a]) ++ V₄).length ≤ m := by
        subst hVeq
        subst hV₂eq
        simp only [List.length_append, List.length_cons, List.length_nil] at hl ⊢
        omega
      obtain ⟨V', c', hwfin, hlfin, hcfin⟩ := ih _ _ _ hlen' hw'
      exact ⟨V', c', hwfin, hlfin, by omega⟩

/-- C3: on the Scenario A graph with source 1, `find_shortest_path` returns
potentials {1:0, 2:1, 3:3, 4:2} and predecessors {2:1, 3:2, 4:3}. -/
theorem C3_scenarioA_run :
    (find_shortest_path scenarioA 1).map
        (fun b => (b.pot 1, b.pot 2, b.pot 3, b.pot 4, b.pred 2, b.pred 3, b.pred 4)) =
      some (some (.Number 0), some (.Number 1), some (.Number 3), some (.Number 2),
        some 1, some 2, some 3) := by
  rfl

/-- C7: immediately after the initialization phase of `find_shortest_path`
and before any relaxation pass, the source's potential is the finite value 0,
every other vertex's potential is `+Infinity`, and every vertex's predecessor
(the source included) is the sentinel -1. -/
theorem C7_initialization (g : DiGraphW) (s : Int) (_hs : s ∈ g.keys) :
    (bellmanInit g s).pot s = some (Infinity.Number 0) ∧
    (∀ v ∈ g.keys, v ≠ s → (bellmanInit g s).pot v = some Infinity.Infinite) ∧
    (∀ v ∈ g.keys, (bellmanInit g s).pred v = some (-1)) := by
  refine ⟨by simp [bellmanInit_pot], fun v hv hvs => ?_, fun v hv => ?_⟩
  · simp [bellmanInit_pot, hv, hvs]
  · simp [bellmanInit_pred, hv]

/-- Witness for C7 at the Scenario A graph with source 1. -/
theorem C7_initialization_witness :
    (bellmanInit scenarioA 1).pot 1 = some (Infinity.Number 0) ∧
    (bellmanInit scenarioA 1).pot 2 = some Infinity.Infinite ∧
    (bellmanInit scenarioA 1).pred 1 = some (-1) :=
  ⟨(C7_initialization scenarioA 1 (by decide)).1,
   (C7_initialization scenarioA 1 (by decide)).2.1 2 (by decide) (by decide),
   (C7_initialization scenarioA 1 (by decide)).2.2 1 (by decide)⟩

/-- C8: whenever the two potential lookups of a relaxation step succeed, the
update branch is entered only with a finite origin potential, so the `unwrap`
at the update site succeeds and the step as a whole cannot fail. -/
theorem C8_update_unwrap_safe (data : Bellman) (change : Bool) (vkey : Int)
    (e : EdgeW) (v_d w_d : Infinity)
    (h1 : data.pot vkey = some v_d) (h2 : data.pot e.destiny_key = some w_d) :
    (Infinity.lt (v_d.add (.Number e.weight)) w_d = true → v_d.unwrap.isSome) ∧
    (relaxEdge (data, change) (vkey, e)).isSome := by
  cases v_d with
  | Infinite =>
    constructor
    · intro h
      rw [show Infinity.Infinite.add (.Number e.weight) = Infinity.Infinite from rfl,
        Infinity.not_lt_infinite] at h
      exact absurd h (by simp)
    · simp only [relaxEdge, h1, h2]
      rw [show Infinity.Infinite.add (.Number e.weight) = Infinity.Infinite from rfl,
        Infinity.not_lt_infinite]
      simp
  | Number n =>
    refine ⟨fun _ => rfl, ?_⟩
    simp only [relaxEdge, h1, h2]
    by_cases hg : Infinity.lt ((Infinity.Number n).add (.Number e.weight)) w_d <;>
      simp [hg, Infinity.unwrap]

/-- Witness for C8: a concrete relaxation step (origin 1, edge (1→2,w=1)) on
the freshly initialized Scenario A state. -/
theorem C8_update_unwrap_safe_witness :
    (Infinity.lt ((Infinity.Number 0).add (.Number 1)) Infinity.Infinite = true →
      (Infinity.Number 0).unwrap.isSome) ∧
    (relaxEdge (bellmanInit scenarioA 1, false) (1, ⟨2, 1⟩)).isSome :=
  C8_update_unwrap_safe (bellmanInit scenarioA 1) false 1 ⟨2, 1⟩
    (Infinity.Number 0) Infinity.Infinite (by rfl) (by rfl)

/-- C6: `find_shortest_path` executes at most `get_vertices_length` (the
graph's declared vertex-count) relaxation passes, the instrumented loop
computes exactly what `find_shortest_path` returns, and as soon as one pass
reports no change the loop stops with that pass's state. -/
theorem C6_pass_bound_and_early_stop (g : DiGraphW) (s : Int) :
    (findShortestPathCount g s).2 ≤ g.get_vertices_length ∧
    (findShortestPathCount g s).1 = find_shortest_path g s ∧
    (∀ data d', relaxPass g data = some (d', false) →
      ∀ fuel, bfLoop g (fuel + 1) data = some d') := by
  refine ⟨bfLoopCount_le g _ _, bfLoopCount_fst g _ _, fun data d' h fuel => ?_⟩
  simp [bfLoop, h]

/-- Witness for C6 on a one-vertex graph whose first pass changes nothing. -/
theorem C6_pass_bound_witness :
    (findShortestPathCount (⟨1, [⟨1, []⟩]⟩ : DiGraphW) 1).2 ≤
        (⟨1, [⟨1, []⟩]⟩ : DiGraphW).get_vertices_length ∧
    bfLoop (⟨1, [⟨1, []⟩]⟩ : DiGraphW) 1 (bellmanInit (⟨1, [⟨1, []⟩]⟩ : DiGraphW) 1) =
      some (bellmanInit (⟨1, [⟨1, []⟩]⟩ : DiGraphW) 1) :=
  ⟨(C6_pass_bound_and_early_stop (⟨1, [⟨1, []⟩]⟩ : DiGraphW) 1).1,
   (C6_pass_bound_and_early_stop (⟨1, [⟨1, []⟩]⟩ : DiGraphW) 1).2.2 _ _ (by rfl) 0⟩

/-- C1 counterexample: `gBadC1` has no negative cycle reachable from source 1
and vertex 2 is reachable from 1 (with a weight-1 walk), yet
`find_shortest_path` leaves the potential of 2 at `+Infinity`, because the
declared vertex count (which bounds the number of passes) is smaller than the
number of stored vertices.  The claim, which promises the true shortest-path
distance for every reachable vertex of every such graph, fails here. -/
theorem C1_counterexample_zero_passes :
    NoNegCycleFrom gBadC1 1 ∧ (2 : Int) ∈ gBadC1.keys ∧ ReachW gBadC1 1 2 ∧
      (find_shortest_path gBadC1 1).map (fun b => b.pot 2) =
        some (some Infinity.Infinite) := by
  refine ⟨noNegCycleFrom_of_nonneg _ (by decide) 1, by decide, ?_, by rfl⟩
  refine ⟨[2], 1, Walk.single ⟨⟨1, [⟨2, 1⟩]⟩, ?_, rfl, ?_⟩⟩
  · simp [gBadC1]
  · simp

/-- C1 (amended): for every closed-storage graph whose declared vertex count
is at least its number of stored vertices, and with no negative-weight cycle
reachable from the source, `find_shortest_path` succeeds and its potential
map assigns to every reachable vertex the true shortest-path distance (the
weight of some walk from the source, and a lower bound of all such walks) and
`+Infinity` to every unreachable vertex. -/
theorem C1_shortest_paths (g : DiGraphW) (s : Int) (hclosed : ClosedGraph g)
    (hnn : NoNegCycleFrom g s) (hn : g.keys.length ≤ g.get_vertices_length) :
    ∃ b, find_shortest_path g s = some b ∧
      (∀ v ∈ g.keys, ReachW g s v →
        ∃ c, b.pot v = some (.Number c) ∧ WalkWeight g s v c ∧
          ∀ c', WalkWeight g s v c' → c ≤ c') ∧
      (∀ v ∈ g.keys, ¬ ReachW g s v → b.pot v = some .Infinite) := by
  obtain ⟨b, hfind, hsim⟩ := sim_find g s hclosed
  obtain ⟨hsimpot, _⟩ := hsim
  have hsound : PotSound g s (findT g s) :=
    potSound_bfLoopT g.get_vertices_length (initT s) (potSound_init g s)
  have hsrc : PotSrc s (findT g s) :=
    potSrc_bfLoopT g.get_vertices_length (potSrc_init s)
  have hb0 : BoundK g s (initT s) 0 := by
    intro v V c hw hlen
    cases V with
    | cons a t => simp at hlen
    | nil =>
      obtain ⟨rfl, rfl⟩ := hw.nil_inv
      simp [initT, Infinity.le]
  have hFB : ∀ v V c, Walk g s v V c →
      Infinity.le ((findT g s).pot v) (.Number c) := by
    rcases bfLoopT_bound g s g.get_vertices_length (initT s) 0 (potSrc_init s) hb0
      with h | h
    · intro v V c hw
      obtain ⟨V', c', hw', hl', hc'⟩ :=
        walk_shorten hclosed hnn V.length V v c (le_refl _) hw
      refine Infinity.le_trans (h v V' c' hw' (by omega)) ?_
      simp only [Infinity.le]
      simpa using hc'
    · exact noRelax_full_bound h hsrc
  refine ⟨b, hfind, ?_, ?_⟩
  · intro v hv hreach
    obtain ⟨V, c₀, hw⟩ := hreach
    obtain ⟨m, hTm, _⟩ := Infinity.le_number_iff.mp (hFB v V c₀ hw)
    refine ⟨m, ?_, hsound v m hTm, ?_⟩
    · rw [hsimpot v (Or.inl hv), hTm]
    · intro c' hww
      obtain ⟨V', hw'⟩ := hww
      have h2 := hFB v V' c' hw'
      rw [hTm] at h2
      simpa [Infinity.le] using h2
  · intro v hv hnreach
    cases hTv : (findT g s).pot v with
    | Number n =>
      obtain ⟨V, hwn⟩ := hsound v n hTv
      exact absurd ⟨V, n, hwn⟩ hnreach
    | Infinite =>
      rw [hsimpot v (Or.inl hv), hTv]

/-- Witness for the amended C1 on a well-formed one-vertex graph. -/
theorem C1_shortest_paths_witness :
    ∃ b, find_shortest_path gUnitC1 1 = some b ∧
      (∀ v ∈ gUnitC1.keys, ReachW gUnitC1 1 v →
        ∃ c, b.pot v = some (.Number c) ∧ WalkWeight gUnitC1 1 v c ∧
          ∀ c', WalkWeight gUnitC1 1 v c' → c ≤ c') ∧
      (∀ v ∈ gUnitC1.keys, ¬ ReachW gUnitC1 1 v → b.pot v = some .Infinite) :=
  C1_shortest_paths gUnitC1 1 (by decide)
    (noNegCycleFrom_of_nonneg gUnitC1 (by decide) 1) (by decide)

theorem insertA_idem {β : Type} (l : List (Int × β)) (k : Int) (v : β) :
    insertA (insertA l k v) k v = insertA l k v := by
  induction l with
  | nil => simp [insertA]
  | cons p t ih =>
    obtain ⟨k', v'⟩ := p
    by_cases hk : k' = k
    · simp [insertA, hk]
    · simp [insertA, hk, ih]

theorem insertA_self_iff {β : Type} (l : List (Int × β)) (k : Int) (v : β)
    (h : (lookupA l k).isSome = true) :
    (insertA l k v = l ↔ lookupA l k = some v) := by
  induction l with
  | nil => simp [lookupA] at h
  | cons p t ih =>
    obtain ⟨k', v'⟩ := p
    by_cases hk : k' = k
    · subst hk
      have h2 : insertA ((k', v') :: t) k' v = (k', v) :: t := by simp [insertA]
      have h3 : lookupA ((k', v') :: t) k' = some v' := by simp [lookupA]
      rw [h2, h3]
      constructor
      · intro he
        have h4 := (List.cons.injEq _ _ _ _).mp he
        have h5 := (Prod.mk.injEq _ _ _ _).mp h4.1
        rw [h5.2]
      · intro hl
        have h6 : v' = v := by simpa using hl
        rw [h6]
    · have h' : (lookupA t k).isSome = true := by
        simpa [lookupA, hk] using h
      have h2 : insertA ((k', v') :: t) k v = (k', v') :: insertA t k v := by
        simp [insertA, hk]
      have h3 : lookupA ((k', v') :: t) k = lookupA t k := by
        simp [lookupA, hk]
      rw [h2, h3, List.cons.injEq]
      simp only [true_and]
      exact ih h'

/-- C4 counterexample: vertex 1 already exists and holds an edge, yet
`add_vertice 1` is not a no-op: it replaces vertex 1 by a fresh vertex,
dropping the edge. -/
theorem C4_counterexample_overwrites :
    gC4.vertice_exists 1 = true ∧ gC4.add_vertice 1 ≠ gC4 ∧
      gC4.get_edges 1 = some [⟨2, 1, 0⟩] ∧
      (gC4.add_vertice 1).get_edges 1 = some [] :=
  ⟨rfl, by decide, rfl, rfl⟩

/-- C4 (amended): `add_vertice` always stores a fresh edgeless vertex under
the key: the operation is idempotent (a second call changes nothing more),
and when the key already exists the call is a no-op exactly when the stored
vertex is the fresh edgeless one. -/
theorem C4_add_vertice_amended (g : DiGraph) (k : Int) :
    ((g.add_vertice k).add_vertice k = g.add_vertice k) ∧
    (g.vertice_exists k = true →
      (g.add_vertice k = g ↔ lookupA g.vertices k = some (Vertice.new k))) := by
  obtain ⟨vn, en, vs⟩ := g
  refine ⟨?_, fun h => ?_⟩
  · simp [DiGraph.add_vertice, insertA_idem]
  · simp only [DiGraph.add_vertice, DiGraph.mk.injEq, true_and]
    exact insertA_self_iff vs k (Vertice.new k)
      (by simpa [DiGraph.vertice_exists] using h)

/-- Witness for the amended C4 at the counterexample graph. -/
theorem C4_add_vertice_amended_witness :
    ((gC4.add_vertice 1).add_vertice 1 = gC4.add_vertice 1) ∧
    (gC4.add_vertice 1 = gC4 ↔ lookupA gC4.vertices 1 = some (Vertice.new 1)) :=
  ⟨(C4_add_vertice_amended gC4 1).1, (C4_add_vertice_amended gC4 1).2 rfl⟩

/-- C5: `remove_edge (u,v,wt)` leaves every other (origin, destination) pair
and all backward edges untouched, keeps exactly the stored edges under
(u,v) whose weight differs from wt, is a no-op when the pair has stored
edges and none matches, and is a no-op when the pair has no entry. -/
theorem C5_remove_edge_exact (vt : VerticeV) (e : EdgeV) :
    (∀ p, p ≠ (e.origin_key, e.destiny_key) →
      (vt.remove_edge e).edges p = vt.edges p) ∧
    (vt.remove_edge e).back_edges = vt.back_edges ∧
    (vt.remove_edge e).key = vt.key ∧
    (∀ l x, vt.edges (e.origin_key, e.destiny_key) = some l →
      ((∃ l', (vt.remove_edge e).edges (e.origin_key, e.destiny_key) = some l' ∧
          x ∈ l') ↔ (x ∈ l ∧ x.weight ≠ e.weight))) ∧
    (∀ l, vt.edges (e.origin_key, e.destiny_key) = some l → l ≠ [] →
      (∀ x ∈ l, x.weight ≠ e.weight) → vt.remove_edge e = vt) ∧
    (vt.edges (e.origin_key, e.destiny_key) = none → vt.remove_edge e = vt) := by
  cases hm : vt.edges (e.origin_key, e.destiny_key) with
  | none =>
    have hr : vt.remove_edge e = vt := by
      simp only [VerticeV.remove_edge, hm]
    refine ⟨fun p _ => by rw [hr], by rw [hr], by rw [hr], ?_, ?_, fun _ => hr⟩
    · intro l x hl
      exact absurd hl (by simp)
    · intro l hl
      exact absurd hl (by simp)
  | some l0 =>
    by_cases hfe : (l0.filter (fun edge => edge.weight != e.weight)).isEmpty = true
    · have hfil : l0.filter (fun edge => edge.weight != e.weight) = [] := by
        simpa using hfe
      have hr : vt.remove_edge e =
          { vt with edges := mapErase vt.edges (e.origin_key, e.destiny_key) } := by
        simp only [VerticeV.remove_edge, hm, hfe]
        rfl
      refine ⟨fun p hp => ?_, by rw [hr], by rw [hr], ?_, ?_, fun hn => ?_⟩
      · rw [hr]
        simp [mapErase, hp]
      · intro l x hl
        obtain rfl : l0 = l := Option.some.inj hl
        rw [hr]
        show (∃ l', mapErase vt.edges (e.origin_key, e.destiny_key)
            (e.origin_key, e.destiny_key) = some l' ∧ x ∈ l') ↔ _
        have hval : mapErase vt.edges (e.origin_key, e.destiny_key)
            (e.origin_key, e.destiny_key) = none := by
          simp [mapErase]
        rw [hval]
        constructor
        · rintro ⟨l', hl', _⟩
          exact absurd hl' (by simp)
        · rintro ⟨hxl, hxw⟩
          exfalso
          have hxf : x ∈ l0.filter (fun edge => edge.weight != e.weight) :=
            List.mem_filter.mpr ⟨hxl, by simpa using hxw⟩
          rw [hfil] at hxf
          simp at hxf
      · intro l hl hne hall
        exfalso
        obtain rfl : l0 = l := Option.some.inj hl
        have hfl : l0.filter (fun edge => edge.weight != e.weight) = l0 :=
          List.filter_eq_self.mpr (fun a ha => by simpa using hall a ha)
        rw [hfl] at hfil
        exact hne hfil
      · exact absurd hn (by simp)
    · have hfe' : (l0.filter (fun edge => edge.weight != e.weight)).isEmpty = false := by
        simpa using hfe
      have hr : vt.remove_edge e =
          { vt with edges := (mapInsert (mapErase vt.edges
              (e.origin_key, e.destiny_key)) (e.origin_key, e.destiny_key)
              (l0.filter (fun edge => edge.weight != e.weight))) } := by
        simp only [VerticeV.remove_edge, hm, hfe']
        rfl
      refine ⟨fun p hp => ?_, by rw [hr], by rw [hr], ?_, ?_, fun hn => ?_⟩
      · rw [hr]
        simp [mapInsert, mapErase, hp]
      · intro l x hl
        obtain rfl : l0 = l := Option.some.inj hl
        rw [hr]
        show (∃ l', mapInsert (mapErase vt.edges (e.origin_key, e.destiny_key))
            (e.origin_key, e.destiny_key)
            (l0.filter (fun edge => edge.weight != e.weight))
            (e.origin_key, e.destiny_key) = some l' ∧ x ∈ l') ↔ _
        have hval : mapInsert (mapErase vt.edges (e.origin_key, e.destiny_key))
            (e.origin_key, e.destiny_key)
            (l0.filter (fun edge => edge.weight != e.weight))
            (e.origin_key, e.destiny_key) =
            some (l0.filter (fun edge => edge.weight != e.weight)) := by
          simp [mapInsert]
        rw [hval]
        constructor
        · rintro ⟨l', hl', hx⟩
          obtain rfl := Option.some.inj hl'
          have hmem := List.mem_filter.mp hx
          exact ⟨hmem.1, by simpa using hmem.2⟩
        · rintro ⟨hxl, hxw⟩
          exact ⟨_, rfl, List.mem_filter.mpr ⟨hxl, by simpa using hxw⟩⟩
      · intro l hl _ hall
        obtain rfl : l0 = l := Option.some.inj hl
        have hfl : l0.filter (fun edge => edge.weight != e.weight) = l0 :=
          List.filter_eq_self.mpr (fun a ha => by simpa using hall a ha)
        rw [hr, hfl]
        obtain ⟨vk, vedges, vback⟩ := vt
        simp only [VerticeV.mk.injEq, true_and, and_true]
        funext p
        by_cases hp : p = (e.origin_key, e.destiny_key)
        · subst hp
          simp only [mapInsert, if_pos rfl]
          exact hm.symm
        · simp [mapInsert, mapErase, hp]
      · exact absurd hn (by simp)

/-- Witness for C5: removing (1→2, weight 5) keeps the weight-7 parallel edge
and drops the weight-5 one. -/
theorem C5_remove_edge_exact_witness :
    (vt57.remove_edge eW5).back_edges = vt57.back_edges ∧
    (∃ l', (vt57.remove_edge eW5).edges (1, 2) = some l' ∧ eW7 ∈ l') ∧
    ¬ (∃ l', (vt57.remove_edge eW5).edges (1, 2) = some l' ∧ eW5 ∈ l') :=
  ⟨(C5_remove_edge_exact vt57 eW5).2.1,
   ((C5_remove_edge_exact vt57 eW5).2.2.2.1 [eW5, eW7] eW7 rfl).mpr
     ⟨by decide, by decide⟩,
   fun hex =>
     (((C5_remove_edge_exact vt57 eW5).2.2.2.1 [eW5, eW7] eW5 rfl).mp hex).2 rfl⟩

/-- C2 (code bug witness run): the completed DFS driver classifies edge 0 as
Tree but never classifies edge 1.  The stack loop pops (rather than peeks)
the top vertex, so after vertex 1 finds its first tree edge its remaining
edges are never examined; vertex 3 is still visited later as a fresh root,
but the edge (1→3) keeps no classification, contradicting the guarantee that
every edge receives exactly one classification. -/
theorem C2_edge_never_classified :
    gC2.get_edges 1 = some [⟨2, 1, 0⟩, ⟨3, 1, 1⟩] ∧
    (dfs_search gC2 1).map
        (fun d => (d.classifications 0, d.classifications 1, d.already_visited 3)) =
      some (some .Arvore, none, true) :=
  ⟨rfl, rfl⟩

/-- C9: DFS is deterministic and idempotent: two completed runs of
`dfs_search` on the same unmutated graph with the same start key yield
identical edge classifications and identical discovery timestamps (with the
spec-mandated fixed root order the engine is a pure function of the graph
and the start key). -/
theorem C9_dfs_deterministic (g : DiGraph) (k : Int) (d₁ d₂ : DfsStruct)
    (h₁ : dfs_search g k = some d₁) (h₂ : dfs_search g k = some d₂) :
    (∀ i, d₁.classifications i = d₂.classifications i) ∧
    (∀ v, d₁.tempo_descoberta v = d₂.tempo_descoberta v) := by
  have hd : d₁ = d₂ := by
    rw [h₁] at h₂
    exact Option.some.inj h₂
  subst hd
  exact ⟨fun _ => rfl, fun _ => rfl⟩

/-- Witness for C9 at the concrete graph `gC2`. -/
theorem C9_dfs_deterministic_witness :
    (∀ i, ((dfs_search gC2 1).get (by rfl)).classifications i =
        ((dfs_search gC2 1).get (by rfl)).classifications i) ∧
    (∀ v, ((dfs_search gC2 1).get (by rfl)).tempo_descoberta v =
        ((dfs_search gC2 1).get (by rfl)).tempo_descoberta v) :=
  C9_dfs_deterministic gC2 1 _ _ (Option.some_get (by rfl)).symm
    (Option.some_get (by rfl)).symm

theorem exploreLoopSt_frame :
    ∀ (fuel : Nat) (g : DiGraph) (stack : List Int) (d : DfsStruct),
      exploreLoopSt fuel g stack d = (exploreLoop g fuel stack d, g) := by
  intro fuel
  induction fuel with
  | zero => intro g stack d; rfl
  | succ n ih =>
    intro g stack d
    cases stack with
    | nil => rfl
    | cons vertice_key rest =>
      rw [exploreLoopSt, exploreLoop]
      simp only [DiGraph.get_edgesSt]
      cases he : g.get_edges vertice_key with
      | none =>
        dsimp only
        exact ih g _ _
      | some arestas =>
        dsimp only
        cases hp : processEdges (visitTop d vertice_key) vertice_key
            (sortEdges arestas) with
        | none => rfl
        | some r =>
          obtain ⟨d', pushed⟩ := r
          cases pushed with
          | none => exact ih g _ _
          | some child => exact ih g _ _

theorem dfsLoopSt_frame :
    ∀ (fuel : Nat) (g : DiGraph) (k : Int) (d : DfsStruct),
      dfsLoopSt fuel g k d = (dfsLoop g fuel k d, g) := by
  intro fuel
  induction fuel with
  | zero => intro g k d; rfl
  | succ n ih =>
    intro g k d
    rw [dfsLoopSt, dfsLoop]
    by_cases hk : k = -1
    · simp [hk]
    · simp only [hk, if_false]
      rw [explore_dfs_vertice, exploreLoopSt_frame (dfsFuel g) g [k] d]
      cases he : exploreLoop g (dfsFuel g) [k] d with
      | none => rfl
      | some d' => exact ih g _ d'

theorem bfLoopSt_frame :
    ∀ (fuel : Nat) (g : DiGraphW) (data : Bellman),
      bfLoopSt fuel g data = (bfLoop g fuel data, g) := by
  intro fuel
  induction fuel with
  | zero => intro g data; rfl
  | succ n ih =>
    intro g data
    rw [bfLoopSt, bfLoop]
    have hps : relaxPassSt g data = (relaxPass g data, g) := rfl
    rw [hps]
    cases hp : relaxPass g data with
    | none => rfl
    | some r =>
      obtain ⟨d', change⟩ := r
      cases change with
      | true => simpa using ih g d'
      | false => rfl

/-- C10: neither analysis engine mutates the graph store: threading the
store through every access of the DFS driver and the Bellman-Ford solver
returns it exactly as given, and the threaded runs compute exactly what the
pure translations compute. -/
theorem C10_engines_preserve_store (gd : DiGraph) (k : Int)
    (gw : DiGraphW) (s : Int) :
    (dfs_searchSt gd k).2 = gd ∧ (dfs_searchSt gd k).1 = dfs_search gd k ∧
    (find_shortest_pathSt gw s).2 = gw ∧
    (find_shortest_pathSt gw s).1 = find_shortest_path gw s := by
  have h1 : dfs_searchSt gd k = (dfs_search gd k, gd) :=
    dfsLoopSt_frame (gd.vertices.length + 2) gd k DfsStruct.new
  have h2 : find_shortest_pathSt gw s = (find_shortest_path gw s, gw) := by
    show bfLoopSt gw.get_vertices_length gw (bellmanInit gw s) = _
    exact bfLoopSt_frame gw.get_vertices_length gw (bellmanInit gw s)
  rw [h1, h2]
  exact ⟨rfl, rfl, rfl, rfl⟩

end Graphos
